import Mathlib

set_option maxRecDepth 8000

/-!
Shallow embedding of the dependency-freshness resolution pipeline of
`how-old-is-my-package`: the VersionSet Resolver, Freshness Calculator,
Registry Client outcome classification, Concurrent Lookup Coordinator and
Stats Aggregator, together with the Status-column classifier of
`StepResults` (`src/unnamed/part_000`).  The hook implementations are not
part of the provided sources, so those components are modelled from the
specification; the Status classifier and the debounce delay are taken
directly from the source.
-/

/-- Modelled from the spec: a pre-release identifier is either numeric or
alphanumeric; numeric identifiers have lower precedence than alphanumeric
ones, so identifiers are ordered as the lexicographic sum of naturals and
strings. -/
abbrev PreId : Type := Lex (Nat ⊕ String)

def PreId.num (n : Nat) : PreId := toLex (Sum.inl n)

def PreId.str (s : String) : PreId := toLex (Sum.inr s)

/-- Modelled from the spec: a semantic version `major.minor.patch` with an
optional pre-release identifier list (the empty list means a release). -/
structure SemVer where
  major : Nat
  minor : Nat
  patch : Nat
  pre : List PreId
  deriving DecidableEq

/-- Modelled from the spec: semantic-version precedence as a lexicographic
key — major, then minor, then patch, then "a release is above every
pre-release of the same triple" (the Boolean `pre.isEmpty`), then the
pre-release identifier list compared lexicographically. -/
def precKey (v : SemVer) :
    Lex (Nat × Lex (Nat × Lex (Nat × Lex (Bool × List PreId)))) :=
  toLex (v.major, toLex (v.minor, toLex (v.patch, toLex (v.pre.isEmpty, v.pre))))

def semLe (a b : SemVer) : Prop := precKey a ≤ precKey b

def semLt (a b : SemVer) : Prop := precKey a < precKey b

instance (a b : SemVer) : Decidable (semLe a b) :=
  inferInstanceAs (Decidable (precKey a ≤ precKey b))

instance (a b : SemVer) : Decidable (semLt a b) :=
  inferInstanceAs (Decidable (precKey a < precKey b))

/-- Comparison operator of a primitive range comparator. -/
inductive CompOp where
  | lt
  | le
  | gt
  | ge
  | eq
  deriving DecidableEq

structure Comparator where
  op : CompOp
  ver : SemVer
  deriving DecidableEq

def compSat (c : Comparator) (v : SemVer) : Bool :=
  match c.op with
  | .lt => decide (semLt v c.ver)
  | .le => decide (semLe v c.ver)
  | .gt => decide (semLt c.ver v)
  | .ge => decide (semLe c.ver v)
  | .eq => decide (v = c.ver)

/-- A conjunction of comparators (one space-separated comparator set). -/
abbrev Conj := List Comparator

/-- A range: a disjunction (`||`) of comparator sets. -/
abbrev Range := List Conj

def rangeSat (r : Range) (v : SemVer) : Bool :=
  r.any (fun cs => cs.all (fun c => compSat c v))

/-- Modelled from the spec: a possibly-incomplete version pattern appearing
in a range; a missing or `x`/`X`/`*` component is a wildcard. -/
structure VerPat where
  major : Option Nat
  minor : Option Nat
  patch : Option Nat
  pre : List PreId

/-- Split a character list at every occurrence of the separator `c`. -/
def splitOnCh (c : Char) : List Char → List (List Char)
  | [] => [[]]
  | x :: xs =>
    if x = c then [] :: splitOnCh c xs
    else
      match splitOnCh c xs with
      | [] => [[x]]
      | g :: gs => (x :: g) :: gs

/-- Split a character list at every occurrence of the separator `||`. -/
def splitOnBars : List Char → List (List Char)
  | [] => [[]]
  | '|' :: '|' :: xs => [] :: splitOnBars xs
  | x :: xs =>
    match splitOnBars xs with
    | [] => [[x]]
    | g :: gs => (x :: g) :: gs

def digitsToNat? (cs : List Char) : Option Nat :=
  if !cs.isEmpty && cs.all Char.isDigit then
    some (cs.foldl (fun n c => n * 10 + (c.toNat - 48)) 0)
  else none

def parseWildOrNat (cs : List Char) : Option (Option Nat) :=
  if cs = ['x'] || cs = ['X'] || cs = ['*'] then some none
  else
    match digitsToNat? cs with
    | some n => some (some n)
    | none => none

def parsePreId (cs : List Char) : Option PreId :=
  if cs.isEmpty then none
  else
    match digitsToNat? cs with
    | some n => some (PreId.num n)
    | none => some (PreId.str (String.mk cs))

/-- Drop any `+build` suffix. -/
def stripBuild (cs : List Char) : List Char :=
  cs.takeWhile (fun c => c ≠ '+')

/-- Split at the first `-` into the version core and the pre-release part;
the second component is `none` when there is no dash at all. -/
def splitPre (cs : List Char) : List Char × Option (List Char) :=
  match cs.dropWhile (fun c => c ≠ '-') with
  | [] => (cs.takeWhile (fun c => c ≠ '-'), none)
  | _ :: rest => (cs.takeWhile (fun c => c ≠ '-'), some rest)

def parseVerPat (cs : List Char) : Option VerPat :=
  let cp := splitPre (stripBuild cs)
  let preIds : Option (List PreId) :=
    match cp.2 with
    | none => some []
    | some p => (splitOnCh '.' p).mapM parsePreId
  match preIds, (splitOnCh '.' cp.1).mapM parseWildOrNat with
  | some pre, some [a] => some ⟨a, none, none, pre⟩
  | some pre, some [a, b] => some ⟨a, b, none, pre⟩
  | some pre, some [a, b, c] => some ⟨a, b, c, pre⟩
  | _, _ => none

/-- A release version with no pre-release part. -/
def vp (M m q : Nat) : SemVer := ⟨M, m, q, []⟩

/-- The pattern with wildcards filled by zero. -/
def VerPat.exact (p : VerPat) : SemVer :=
  ⟨p.major.getD 0, p.minor.getD 0, p.patch.getD 0, p.pre⟩

/-- Desugaring of a bare (x-range) pattern. -/
def plainComps (p : VerPat) : Conj :=
  match p.major, p.minor, p.patch with
  | none, _, _ => []
  | some M, none, _ => [⟨.ge, vp M 0 0⟩, ⟨.lt, vp (M + 1) 0 0⟩]
  | some M, some m, none => [⟨.ge, vp M m 0⟩, ⟨.lt, vp M (m + 1) 0⟩]
  | some M, some m, some q => [⟨.eq, ⟨M, m, q, p.pre⟩⟩]

/-- Desugaring of a caret (`^`) pattern. -/
def caretComps (p : VerPat) : Conj :=
  match p.major, p.minor, p.patch with
  | none, _, _ => []
  | some M, none, _ => [⟨.ge, vp M 0 0⟩, ⟨.lt, vp (M + 1) 0 0⟩]
  | some M, some m, none =>
    if M = 0 then [⟨.ge, vp 0 m 0⟩, ⟨.lt, vp 0 (m + 1) 0⟩]
    else [⟨.ge, vp M m 0⟩, ⟨.lt, vp (M + 1) 0 0⟩]
  | some M, some m, some q =>
    if 0 < M then [⟨.ge, ⟨M, m, q, p.pre⟩⟩, ⟨.lt, vp (M + 1) 0 0⟩]
    else if 0 < m then [⟨.ge, ⟨0, m, q, p.pre⟩⟩, ⟨.lt, vp 0 (m + 1) 0⟩]
    else [⟨.ge, ⟨0, 0, q, p.pre⟩⟩, ⟨.lt, vp 0 0 (q + 1)⟩]

/-- Desugaring of a tilde (`~`) pattern. -/
def tildeComps (p : VerPat) : Conj :=
  match p.major, p.minor, p.patch with
  | none, _, _ => []
  | some M, none, _ => [⟨.ge, vp M 0 0⟩, ⟨.lt, vp (M + 1) 0 0⟩]
  | some M, some m, none => [⟨.ge, vp M m 0⟩, ⟨.lt, vp M (m + 1) 0⟩]
  | some M, some m, some q => [⟨.ge, ⟨M, m, q, p.pre⟩⟩, ⟨.lt, vp M (m + 1) 0⟩]

def hyphenLower (p : VerPat) : Conj :=
  match p.major with
  | none => []
  | some _ => [⟨.ge, p.exact⟩]

def hyphenUpper (p : VerPat) : Conj :=
  match p.major, p.minor, p.patch with
  | none, _, _ => []
  | some M, none, _ => [⟨.lt, vp (M + 1) 0 0⟩]
  | some M, some m, none => [⟨.lt, vp M (m + 1) 0⟩]
  | some M, some m, some q => [⟨.le, ⟨M, m, q, p.pre⟩⟩]

def parseComparator (tok : List Char) : Option Conj :=
  match tok with
  | '>' :: '=' :: rest => (parseVerPat rest).map (fun p => [⟨.ge, p.exact⟩])
  | '<' :: '=' :: rest => (parseVerPat rest).map (fun p => [⟨.le, p.exact⟩])
  | '>' :: rest => (parseVerPat rest).map (fun p => [⟨.gt, p.exact⟩])
  | '<' :: rest => (parseVerPat rest).map (fun p => [⟨.lt, p.exact⟩])
  | '^' :: rest => (parseVerPat rest).map caretComps
  | '~' :: rest => (parseVerPat rest).map tildeComps
  | '=' :: rest => (parseVerPat rest).map plainComps
  | rest => (parseVerPat rest).map plainComps

def splitTokens (cs : List Char) : List (List Char) :=
  (splitOnCh ' ' cs).filter (fun t => !t.isEmpty)

def parseConj (cs : List Char) : Option Conj :=
  match splitTokens cs with
  | [a, ['-'], b] =>
    match parseVerPat a, parseVerPat b with
    | some pa, some pb => some (hyphenLower pa ++ hyphenUpper pb)
    | _, _ => none
  | toks => (toks.mapM parseComparator).map List.flatten

/-- Modelled from the spec: the range parser of the VersionSet Resolver
(standard semantic-versioning range grammar: comparators, hyphen ranges,
`^`/`~` prefixes, wildcards); an unparseable range yields `none`. -/
def parseRange (s : String) : Option Range :=
  (splitOnBars s.data).mapM parseConj

/-- Modelled from the spec: one published version reported by the registry,
a semantic version together with its publish timestamp (seconds). -/
structure PublishedVersion where
  version : SemVer
  publishedAt : Int
  deriving DecidableEq

/-- Keep whichever of the two has the larger semantic version. -/
def pickMax (a b : PublishedVersion) : PublishedVersion :=
  if semLe a.version b.version then b else a

def maxOfList (v : PublishedVersion) (vs : List PublishedVersion) : PublishedVersion :=
  vs.foldl pickMax v

/-- The maximum semantic version of a list of published versions. -/
def maxVersion? (versions : List PublishedVersion) : Option PublishedVersion :=
  match versions with
  | [] => none
  | v :: vs => some (maxOfList v vs)

/-- Modelled from the spec: the VersionSet Resolver — filter the versions
whose semantic version satisfies the range predicate, then select the
maximum by semantic-version ordering; `none` when nothing satisfies the
range or the range string is unparseable. -/
def resolveMaxSatisfying (versions : List PublishedVersion) (range : String) :
    Option PublishedVersion :=
  match parseRange range with
  | none => none
  | some r => maxVersion? (versions.filter (fun pv => rangeSat r pv.version))

/-- The four published versions used by the spec's worked example. -/
def demoVersions : List PublishedVersion :=
  [⟨vp 1 1 0, 100⟩, ⟨vp 1 2 0, 200⟩, ⟨vp 1 3 5, 300⟩, ⟨vp 2 0 0, 400⟩]

/-- Modelled from the spec: registry metadata for one package. -/
structure PackageMetadata where
  name : String
  versions : List PublishedVersion
  distTags : List (String × SemVer)
  deriving DecidableEq

/-- Modelled from the spec: the typed outcome of one metadata fetch. -/
inductive LookupOutcome where
  | success (meta : PackageMetadata)
  | notFound
  | transportError (detail : String)
  | parseError (detail : String)
  deriving DecidableEq

/-- Modelled from the spec: `resolveLatest` — the version the registry's own
`latest` dist-tag names when that tag is present (falling back to the
maximum semantic version when the tagged version is absent from the version
set), else the maximum semantic version present. -/
def resolveLatest (meta : PackageMetadata) : Option PublishedVersion :=
  match meta.distTags.lookup "latest" with
  | some v =>
    match meta.versions.find? (fun pv => decide (pv.version = v)) with
    | some pv => some pv
    | none => maxVersion? meta.versions
  | none => maxVersion? meta.versions

/-- Modelled from the spec: the observable response of one registry request
(an HTTP response with status and body, or a network failure / timeout). -/
inductive RegistryResponse where
  | http (status : Nat) (body : String)
  | networkError (detail : String)
  | timeout
  deriving DecidableEq

/-- Modelled from the spec: the Registry Client `fetchMetadata` — a total
classification of every possible response into a `LookupOutcome` (never
throws); the body parser, the only place registry schema knowledge lives,
is passed in as a function. -/
def fetchMetadata (parseBody : String → Option PackageMetadata) :
    RegistryResponse → LookupOutcome
  | .http status body =>
    if status = 404 then .notFound
    else if 200 ≤ status ∧ status < 300 then
      match parseBody body with
      | some meta => .success meta
      | none => .parseError "malformed metadata document"
    else .transportError "unexpected http status"
  | .networkError detail => .transportError detail
  | .timeout => .transportError "timeout"

/-- Modelled from the spec: a dependency extracted from the manifest. -/
structure Dependency where
  name : String
  requestedRange : String
  isDev : Bool
  deriving DecidableEq

/-- Modelled from the spec: the Coordinator's observable state — the id of
the active run, the progress counters and the outcome map of the active
run. -/
structure CoordState where
  activeRun : Nat
  total : Nat
  fulfilled : Nat
  results : List (String × LookupOutcome)
  deriving DecidableEq

def CoordState.init : CoordState := ⟨0, 0, 0, []⟩

/-- The deduplicated package names of a dependency sequence. -/
def dedupNames (deps : List Dependency) : List String :=
  (deps.map Dependency.name).dedup

/-- Modelled from the spec: starting a `lookup` run — the previous run is
superseded (fresh run id), results are cleared, `total` is set to the
deduplicated name count and `fulfilled` to zero before any fetch is issued;
the second component is the list of fetches to issue, one per distinct
name. -/
def startRun (s : CoordState) (deps : List Dependency) : CoordState × List String :=
  (⟨s.activeRun + 1, (dedupNames deps).length, 0, []⟩, dedupNames deps)

/-- A fetch completion event, tagged with the run that issued it. -/
structure FetchEvent where
  runId : Nat
  name : String
  outcome : LookupOutcome
  deriving DecidableEq

/-- Modelled from the spec: applying one fetch completion — an outcome of a
superseded run (stale run id) is discarded; an outcome of the active run is
recorded and bumps `fulfilled`. -/
def applyEvent (s : CoordState) (e : FetchEvent) : CoordState :=
  if e.runId = s.activeRun then
    ⟨s.activeRun, s.total, s.fulfilled + 1, s.results ++ [(e.name, e.outcome)]⟩
  else s

def applyEvents (s : CoordState) (evs : List FetchEvent) : CoordState :=
  evs.foldl applyEvent s

/-- The completion events of one run when every issued fetch settles with
the outcome the oracle `fetch` assigns to its package name. -/
def runEvents (runId : Nat) (fetch : String → LookupOutcome) (names : List String) :
    List FetchEvent :=
  names.map (fun n => ⟨runId, n, fetch n⟩)

/-- Modelled from the spec: a full `lookup` run that settles undisturbed —
start a fresh run, then apply the completion of every issued fetch. -/
def settleRun (s : CoordState) (deps : List Dependency)
    (fetch : String → LookupOutcome) : CoordState :=
  applyEvents (startRun s deps).1
    (runEvents (startRun s deps).1.activeRun fetch (startRun s deps).2)

/-- The Coordinator state after a second `lookup` call supersedes a first
one that has not yet settled: two consecutive `startRun`s. -/
def secondRunState (s : CoordState) (deps1 deps2 : List Dependency) : CoordState :=
  (startRun (startRun s deps1).1 deps2).1

/-- Modelled from the spec: the Freshness Calculator `ageSeconds` —
`now - publishedAt` in whole seconds, with a clock-skew-induced negative
difference clamped to zero. -/
def ageSeconds (publishedAt now : Int) : Int :=
  max (now - publishedAt) 0

/-- Modelled from the spec: one final output row of the Stats Aggregator. -/
structure StatRow where
  package : String
  isDev : Bool
  targetVersion : String
  maxSatisfiedVersion : SemVer
  maxSatisfiedPublishedAt : Int
  maxSatisfiedAge : Int
  latestVersion : SemVer
  latestPublishedAt : Int
  latestAge : Int
  deriving DecidableEq

/-- The row the Stats Aggregator emits for one dependency; `none` when the
outcome is not a success or the range resolves to nothing. -/
def statRowFor (outcomes : List (String × LookupOutcome)) (now : Int)
    (d : Dependency) : Option StatRow :=
  match outcomes.lookup d.name with
  | some (.success meta) =>
    match resolveMaxSatisfying meta.versions d.requestedRange with
    | none => none
    | some maxPv =>
      match resolveLatest meta with
      | none => none
      | some latestPv =>
        some ⟨d.name, d.isDev, d.requestedRange,
          maxPv.version, maxPv.publishedAt, ageSeconds maxPv.publishedAt now,
          latestPv.version, latestPv.publishedAt, ageSeconds latestPv.publishedAt now⟩
  | _ => none

/-- Modelled from the spec: the Stats Aggregator `computeStats` — for each
dependency in input order, join it with its lookup outcome and emit a row
exactly when the outcome is a success and the range resolves. -/
def computeStats (deps : List Dependency) (outcomes : List (String × LookupOutcome))
    (now : Int) : List StatRow :=
  deps.filterMap (statRowFor outcomes now)

/-- Decides whether the Stats Aggregator emits a row for a dependency. -/
def emitsRow (outcomes : List (String × LookupOutcome)) (d : Dependency) : Bool :=
  match outcomes.lookup d.name with
  | some (.success meta) => (resolveMaxSatisfying meta.versions d.requestedRange).isSome
  | _ => false

/-- Modelled from the spec: one input-change event in front of the
Coordinator — the new dependency list and registry endpoint, at a time in
milliseconds. -/
structure TriggerInput where
  deps : List Dependency
  registryUrl : String
  deriving DecidableEq

/-- Modelled from the spec: the debounce stage — a change event fires only
when no further change arrives within `delay` milliseconds of it; a change
followed too quickly by another one is coalesced away. -/
def debounceFires (delay : Nat) :
    List (Nat × TriggerInput) → List (Nat × TriggerInput)
  | [] => []
  | [e] => [e]
  | e1 :: e2 :: rest =>
    if e2.1 < e1.1 + delay then debounceFires delay (e2 :: rest)
    else e1 :: debounceFires delay (e2 :: rest)

/-- Each debounced fire enters the Coordinator and starts a fresh run. -/
def processFires (s : CoordState) (fires : List (Nat × TriggerInput)) : CoordState :=
  fires.foldl (fun st e => (startRun st e.2.deps).1) s

/-- The debounce delay the `StepResults` component passes to
`useEffectDebounced` (src/unnamed/part_000, line 40). -/
def stepResultsDebounceDelay : Nat := 200

/-- `YEAR_SECONDS` of src/unnamed/part_000, line 109: `365 * 24 * 60 * 60`. -/
def YEAR_SECONDS : Int := 365 * 24 * 60 * 60

/-- The Status-column classifier of `getStatColumns`
(src/unnamed/part_000, lines 188-201), a function of `latestAge` alone.
The fractional thresholds `YEAR_SECONDS * 1.5` and `YEAR_SECONDS / 2` of
the source are whole numbers of seconds, written here as exact integer
divisions. -/
def statusEmoji (latestAge : Int) : String :=
  if latestAge > YEAR_SECONDS * 5 then "👻"
  else if latestAge > YEAR_SECONDS * 3 then "💀"
  else if latestAge > YEAR_SECONDS * 3 / 2 then "🧟"
  else if latestAge < YEAR_SECONDS / 2 then "🔥"
  else "👍"

/-! Order lemmas for the semantic-version precedence. -/

theorem semLe_refl (a : SemVer) : semLe a a := le_refl _

theorem semLe_trans {a b c : SemVer} (h1 : semLe a b) (h2 : semLe b c) : semLe a c :=
  le_trans h1 h2

theorem semLe_total (a b : SemVer) : semLe a b ∨ semLe b a := le_total _ _

theorem semLe_of_not_semLe {a b : SemVer} (h : ¬ semLe a b) : semLe b a :=
  le_of_not_le h

theorem precKey_injective : Function.Injective precKey := by
  intro a b h
  unfold precKey at h
  simp only [toLex_inj, Prod.mk.injEq] at h
  obtain ⟨h1, h2, h3, _, h5⟩ := h
  cases a
  cases b
  simp_all

theorem semLe_antisymm {a b : SemVer} (h1 : semLe a b) (h2 : semLe b a) : a = b :=
  precKey_injective (le_antisymm h1 h2)

theorem pickMax_eq_or (a b : PublishedVersion) : pickMax a b = a ∨ pickMax a b = b := by
  unfold pickMax
  split
  · right
    rfl
  · left
    rfl

theorem le_pickMax_left (a b : PublishedVersion) :
    semLe a.version (pickMax a b).version := by
  unfold pickMax
  split
  · assumption
  · exact semLe_refl _

theorem le_pickMax_right (a b : PublishedVersion) :
    semLe b.version (pickMax a b).version := by
  unfold pickMax
  split
  · exact semLe_refl _
  · next h => exact semLe_of_not_semLe h

theorem maxOfList_cons (v x : PublishedVersion) (xs : List PublishedVersion) :
    maxOfList v (x :: xs) = maxOfList (pickMax v x) xs := rfl

theorem maxOfList_mem (vs : List PublishedVersion) :
    ∀ v, maxOfList v vs ∈ v :: vs := by
  induction vs with
  | nil =>
    intro v
    simp [maxOfList]
  | cons x xs ih =>
    intro v
    rw [maxOfList_cons]
    have h := ih (pickMax v x)
    rcases pickMax_eq_or v x with hp | hp <;> rw [hp] at h ⊢ <;>
      simp only [List.mem_cons] at h ⊢ <;> tauto

theorem le_maxOfList (vs : List PublishedVersion) :
    ∀ v, ∀ x ∈ v :: vs, semLe x.version (maxOfList v vs).version := by
  induction vs with
  | nil =>
    intro v x hx
    simp only [List.mem_cons, List.not_mem_nil, or_false] at hx
    subst hx
    exact semLe_refl _
  | cons y ys ih =>
    intro v x hx
    rw [maxOfList_cons]
    rcases List.mem_cons.mp hx with h | h
    · subst h
      exact semLe_trans (le_pickMax_left x y)
        (ih (pickMax x y) _ (List.mem_cons_self _ _))
    rcases List.mem_cons.mp h with h2 | h2
    · subst h2
      exact semLe_trans (le_pickMax_right v x)
        (ih (pickMax v x) _ (List.mem_cons_self _ _))
    · exact ih (pickMax v y) x (List.mem_cons_of_mem _ h2)

theorem resolveMaxSatisfying_parse_none (versions : List PublishedVersion)
    (range : String) (h : parseRange range = none) :
    resolveMaxSatisfying versions range = none := by
  unfold resolveMaxSatisfying
  rw [h]

theorem resolveMaxSatisfying_parse_some (versions : List PublishedVersion)
    (range : String) (r : Range) (h : parseRange range = some r) :
    resolveMaxSatisfying versions range =
      maxVersion? (versions.filter (fun pv => rangeSat r pv.version)) := by
  unfold resolveMaxSatisfying
  rw [h]

theorem resolveMaxSatisfying_none_iff (versions : List PublishedVersion)
    (range : String) (r : Range) (h : parseRange range = some r) :
    resolveMaxSatisfying versions range = none ↔
      ∀ pv ∈ versions, rangeSat r pv.version = false := by
  rw [resolveMaxSatisfying_parse_some versions range r h]
  cases hf : versions.filter (fun pv => rangeSat r pv.version) with
  | nil =>
    constructor
    · intro _ pv hpv
      cases hq : rangeSat r pv.version with
      | false => rfl
      | true =>
        exfalso
        have hmem : pv ∈ versions.filter (fun pv => rangeSat r pv.version) :=
          List.mem_filter.mpr ⟨hpv, hq⟩
        rw [hf] at hmem
        exact (List.not_mem_nil pv) hmem
    · intro _
      rfl
  | cons v vs =>
    constructor
    · intro h2
      exact absurd h2 (Option.some_ne_none _)
    · intro hall
      exfalso
      have hv : v ∈ versions.filter (fun pv => rangeSat r pv.version) := by
        rw [hf]
        exact List.mem_cons_self v vs
      obtain ⟨hv1, hv2⟩ := List.mem_filter.mp hv
      rw [hall v hv1] at hv2
      cases hv2

theorem resolveMaxSatisfying_some_spec (versions : List PublishedVersion)
    (range : String) (r : Range) (h : parseRange range = some r)
    (m : PublishedVersion) (hm : resolveMaxSatisfying versions range = some m) :
    m ∈ versions ∧ rangeSat r m.version = true ∧
      ∀ pv ∈ versions, rangeSat r pv.version = true → semLe pv.version m.version := by
  rw [resolveMaxSatisfying_parse_some versions range r h] at hm
  rcases hf : versions.filter (fun pv => rangeSat r pv.version) with _ | ⟨v, vs⟩
  · rw [hf] at hm
    cases hm
  · rw [hf] at hm
    have hmv : m = maxOfList v vs := by
      unfold maxVersion? at hm
      exact ((Option.some.injEq _ _).mp hm).symm
    have hmem : m ∈ v :: vs := hmv ▸ maxOfList_mem vs v
    rw [← hf] at hmem
    obtain ⟨h1, h2⟩ := List.mem_filter.mp hmem
    refine ⟨h1, h2, ?_⟩
    intro pv hpv hsat
    have hpf : pv ∈ versions.filter (fun pv => rangeSat r pv.version) :=
      List.mem_filter.mpr ⟨hpv, hsat⟩
    rw [hf] at hpf
    rw [hmv]
    exact le_maxOfList vs v pv hpf

theorem resolve_version_eq_of_mem_iff (l1 l2 : List PublishedVersion) (range : String)
    (h : ∀ pv : PublishedVersion, pv ∈ l1 ↔ pv ∈ l2) :
    (resolveMaxSatisfying l1 range).map (fun pv => pv.version) =
      (resolveMaxSatisfying l2 range).map (fun pv => pv.version) := by
  cases hp : parseRange range with
  | none =>
    rw [resolveMaxSatisfying_parse_none l1 range hp,
      resolveMaxSatisfying_parse_none l2 range hp]
  | some r =>
    cases h1 : resolveMaxSatisfying l1 range with
    | none =>
      have hall := (resolveMaxSatisfying_none_iff l1 range r hp).mp h1
      have h2 : resolveMaxSatisfying l2 range = none :=
        (resolveMaxSatisfying_none_iff l2 range r hp).mpr
          (fun pv hpv => hall pv ((h pv).mpr hpv))
      rw [h2]
    | some m1 =>
      cases h2 : resolveMaxSatisfying l2 range with
      | none =>
        have hall := (resolveMaxSatisfying_none_iff l2 range r hp).mp h2
        obtain ⟨hm1, hsat1, _⟩ := resolveMaxSatisfying_some_spec l1 range r hp m1 h1
        have hfalse := hall m1 ((h m1).mp hm1)
        rw [hsat1] at hfalse
        cases hfalse
      | some m2 =>
        obtain ⟨hm1, hsat1, hub1⟩ := resolveMaxSatisfying_some_spec l1 range r hp m1 h1
        obtain ⟨hm2, hsat2, hub2⟩ := resolveMaxSatisfying_some_spec l2 range r hp m2 h2
        have le12 : semLe m1.version m2.version := hub2 m1 ((h m1).mp hm1) hsat1
        have le21 : semLe m2.version m1.version := hub1 m2 ((h m2).mpr hm2) hsat2
        simp only [Option.map_some']
        exact congrArg some (semLe_antisymm le12 le21)

/-! Coordinator lemmas. -/

theorem applyEvent_active (s : CoordState) (e : FetchEvent)
    (h : e.runId = s.activeRun) :
    applyEvent s e =
      ⟨s.activeRun, s.total, s.fulfilled + 1, s.results ++ [(e.name, e.outcome)]⟩ := by
  unfold applyEvent
  rw [if_pos h]

theorem applyEvent_stale (s : CoordState) (e : FetchEvent)
    (h : e.runId ≠ s.activeRun) : applyEvent s e = s := by
  unfold applyEvent
  rw [if_neg h]

theorem applyEvent_activeRun (s : CoordState) (e : FetchEvent) :
    (applyEvent s e).activeRun = s.activeRun := by
  unfold applyEvent
  split <;> rfl

theorem applyEvents_cons (s : CoordState) (e : FetchEvent) (es : List FetchEvent) :
    applyEvents s (e :: es) = applyEvents (applyEvent s e) es := rfl

theorem applyEvents_activeRun (evs : List FetchEvent) :
    ∀ s : CoordState, (applyEvents s evs).activeRun = s.activeRun := by
  induction evs with
  | nil =>
    intro s
    rfl
  | cons e es ih =>
    intro s
    rw [applyEvents_cons, ih, applyEvent_activeRun]

theorem applyEvents_run (evs : List FetchEvent) :
    ∀ s : CoordState, (∀ e ∈ evs, e.runId = s.activeRun) →
      (applyEvents s evs).total = s.total ∧
      (applyEvents s evs).fulfilled = s.fulfilled + evs.length := by
  induction evs with
  | nil =>
    intro s _
    exact ⟨rfl, rfl⟩
  | cons e es ih =>
    intro s h
    have he : e.runId = s.activeRun := h e (List.mem_cons_self _ _)
    rw [applyEvents_cons, applyEvent_active s e he]
    have hrest : ∀ e' ∈ es,
        e'.runId = (⟨s.activeRun, s.total, s.fulfilled + 1,
          s.results ++ [(e.name, e.outcome)]⟩ : CoordState).activeRun :=
      fun e' he' => h e' (List.mem_cons_of_mem _ he')
    obtain ⟨h1, h2⟩ := ih _ hrest
    refine ⟨h1, ?_⟩
    rw [h2]
    simp only [List.length_cons]
    omega

theorem applyEvents_drop_stale (evs : List FetchEvent) :
    ∀ s : CoordState,
      applyEvents s evs =
        applyEvents s (evs.filter (fun e => e.runId == s.activeRun)) := by
  induction evs with
  | nil =>
    intro s
    rfl
  | cons e es ih =>
    intro s
    by_cases h : e.runId = s.activeRun
    · have hb : (e.runId == s.activeRun) = true := beq_iff_eq.mpr h
      rw [applyEvents_cons]
      have hi := ih (applyEvent s e)
      simp only [applyEvent_activeRun] at hi
      rw [hi, List.filter_cons]
      simp only [hb, if_true, applyEvents_cons]
    · have hb : (e.runId == s.activeRun) = false := by
        simp [h]
      rw [applyEvents_cons, applyEvent_stale s e h, List.filter_cons]
      simp only [hb, Bool.false_eq_true, if_false]
      exact ih s

theorem applyEvents_all_stale (evs : List FetchEvent) :
    ∀ s : CoordState, (∀ e ∈ evs, e.runId ≠ s.activeRun) → applyEvents s evs = s := by
  induction evs with
  | nil =>
    intro s _
    rfl
  | cons e es ih =>
    intro s h
    rw [applyEvents_cons, applyEvent_stale s e (h e (List.mem_cons_self _ _))]
    exact ih s (fun e' he' => h e' (List.mem_cons_of_mem _ he'))

theorem applyEvents_results (evs : List FetchEvent) :
    ∀ s : CoordState, ∀ x ∈ (applyEvents s evs).results,
      x ∈ s.results ∨
        ∃ e ∈ evs, e.runId = s.activeRun ∧ x = (e.name, e.outcome) := by
  induction evs with
  | nil =>
    intro s x hx
    exact Or.inl hx
  | cons e es ih =>
    intro s x hx
    rw [applyEvents_cons] at hx
    rcases ih (applyEvent s e) x hx with hmem | ⟨e', he', hrun, hxe⟩
    · by_cases h : e.runId = s.activeRun
      · rw [applyEvent_active s e h] at hmem
        rcases List.mem_append.mp hmem with h1 | h1
        · exact Or.inl h1
        · simp only [List.mem_singleton] at h1
          exact Or.inr ⟨e, List.mem_cons_self _ _, h, h1⟩
      · rw [applyEvent_stale s e h] at hmem
        exact Or.inl hmem
    · rw [applyEvent_activeRun] at hrun
      exact Or.inr ⟨e', List.mem_cons_of_mem _ he', hrun, hxe⟩

/-! Aggregator lemmas. -/

theorem resolveMaxSatisfying_mem (versions : List PublishedVersion) (range : String)
    (m : PublishedVersion) (h : resolveMaxSatisfying versions range = some m) :
    m ∈ versions := by
  cases hp : parseRange range with
  | none =>
    rw [resolveMaxSatisfying_parse_none versions range hp] at h
    cases h
  | some r => exact (resolveMaxSatisfying_some_spec versions range r hp m h).1

theorem maxVersion?_isSome (versions : List PublishedVersion) (h : versions ≠ []) :
    (maxVersion? versions).isSome = true := by
  cases versions with
  | nil => exact absurd rfl h
  | cons v vs => rfl

theorem resolveLatest_isSome (meta : PackageMetadata) (h : meta.versions ≠ []) :
    (resolveLatest meta).isSome = true := by
  rcases hq : meta.distTags.lookup "latest" with _ | v
  · simp only [resolveLatest, hq]
    exact maxVersion?_isSome _ h
  · rcases hf : meta.versions.find? (fun pv => decide (pv.version = v)) with _ | pv
    · simp only [resolveLatest, hq, hf]
      exact maxVersion?_isSome _ h
    · simp only [resolveLatest, hq, hf, Option.isSome_some]

theorem statRowFor_ages (outcomes : List (String × LookupOutcome)) (now : Int)
    (d : Dependency) (row : StatRow) (h : statRowFor outcomes now d = some row) :
    0 ≤ row.maxSatisfiedAge ∧ 0 ≤ row.latestAge := by
  unfold statRowFor at h
  rcases hq : outcomes.lookup d.name with _ | o
  · simp only [hq] at h
    exact Option.noConfusion h
  · simp only [hq] at h
    cases o with
    | success meta =>
      rcases hr : resolveMaxSatisfying meta.versions d.requestedRange with _ | maxPv
      · simp only [hr] at h
        exact Option.noConfusion h
      · simp only [hr] at h
        rcases hl : resolveLatest meta with _ | latestPv
        · simp only [hl] at h
          exact Option.noConfusion h
        · simp only [hl, Option.some.injEq] at h
          subst h
          exact ⟨le_max_right _ _, le_max_right _ _⟩
    | notFound => exact Option.noConfusion h
    | transportError detail => exact Option.noConfusion h
    | parseError detail => exact Option.noConfusion h

theorem statRowFor_none_of_not_emits (outcomes : List (String × LookupOutcome))
    (now : Int) (d : Dependency) (h : emitsRow outcomes d = false) :
    statRowFor outcomes now d = none := by
  unfold emitsRow at h
  unfold statRowFor
  rcases hq : outcomes.lookup d.name with _ | o
  · simp only [hq]
  · simp only [hq] at h ⊢
    cases o with
    | success meta =>
      rcases hr : resolveMaxSatisfying meta.versions d.requestedRange with _ | maxPv
      · simp only [hr]
      · simp only [hr, Option.isSome_some] at h
        exact Bool.noConfusion h
    | notFound => rfl
    | transportError detail => rfl
    | parseError detail => rfl

theorem statRowFor_some_of_emits (outcomes : List (String × LookupOutcome))
    (now : Int) (d : Dependency) (h : emitsRow outcomes d = true) :
    ∃ row, statRowFor outcomes now d = some row ∧ row.package = d.name := by
  unfold emitsRow at h
  unfold statRowFor
  rcases hq : outcomes.lookup d.name with _ | o
  · simp only [hq] at h
    exact Bool.noConfusion h
  · simp only [hq] at h ⊢
    cases o with
    | success meta =>
      rcases hr : resolveMaxSatisfying meta.versions d.requestedRange with _ | maxPv
      · simp only [hr, Option.isSome_none] at h
        exact Bool.noConfusion h
      · have hne : meta.versions ≠ [] :=
          List.ne_nil_of_mem (resolveMaxSatisfying_mem _ _ _ hr)
        have hl := resolveLatest_isSome meta hne
        rcases hlat : resolveLatest meta with _ | latestPv
        · rw [hlat] at hl
          exact Bool.noConfusion hl
        · simp only [hr, hlat]
          exact ⟨_, rfl, rfl⟩
    | notFound => exact Bool.noConfusion h
    | transportError detail => exact Bool.noConfusion h
    | parseError detail => exact Bool.noConfusion h

theorem computeStats_cons_none (outcomes : List (String × LookupOutcome)) (now : Int)
    (d : Dependency) (ds : List Dependency) (h : statRowFor outcomes now d = none) :
    computeStats (d :: ds) outcomes now = computeStats ds outcomes now := by
  unfold computeStats
  rw [List.filterMap_cons, h]

theorem computeStats_cons_some (outcomes : List (String × LookupOutcome)) (now : Int)
    (d : Dependency) (ds : List Dependency) (row : StatRow)
    (h : statRowFor outcomes now d = some row) :
    computeStats (d :: ds) outcomes now = row :: computeStats ds outcomes now := by
  unfold computeStats
  rw [List.filterMap_cons, h]

theorem computeStats_packages (outcomes : List (String × LookupOutcome)) (now : Int) :
    ∀ deps : List Dependency,
      (computeStats deps outcomes now).map StatRow.package =
        (deps.filter (emitsRow outcomes)).map Dependency.name := by
  intro deps
  induction deps with
  | nil => rfl
  | cons d ds ih =>
    cases he : emitsRow outcomes d with
    | false =>
      rw [computeStats_cons_none outcomes now d ds
        (statRowFor_none_of_not_emits outcomes now d he), List.filter_cons]
      simp only [he, Bool.false_eq_true, if_false]
      exact ih
    | true =>
      obtain ⟨row, hrow, hpkg⟩ := statRowFor_some_of_emits outcomes now d he
      rw [computeStats_cons_some outcomes now d ds row hrow, List.filter_cons]
      simp only [he, if_true, List.map_cons]
      rw [ih, hpkg]

theorem computeStats_ages (deps : List Dependency)
    (outcomes : List (String × LookupOutcome)) (now : Int) :
    ∀ row ∈ computeStats deps outcomes now,
      0 ≤ row.maxSatisfiedAge ∧ 0 ≤ row.latestAge := by
  intro row hrow
  unfold computeStats at hrow
  obtain ⟨d, _, hd⟩ := List.mem_filterMap.mp hrow
  exact statRowFor_ages outcomes now d row hd

/-! Debounce lemmas. -/

theorem debounceFires_subset (delay : Nat) :
    ∀ evs : List (Nat × TriggerInput), ∀ e ∈ debounceFires delay evs, e ∈ evs
  | [] => by
    intro e he
    simp [debounceFires] at he
  | [e1] => by
    intro e he
    simp only [debounceFires] at he
    simpa using he
  | e1 :: e2 :: rest => by
    intro e he
    by_cases hlt : e2.1 < e1.1 + delay
    · simp only [debounceFires, if_pos hlt] at he
      exact List.mem_cons_of_mem _ (debounceFires_subset delay (e2 :: rest) e he)
    · simp only [debounceFires, if_neg hlt] at he
      rcases List.mem_cons.mp he with h | h
      · exact h ▸ List.mem_cons_self _ _
      · exact List.mem_cons_of_mem _ (debounceFires_subset delay (e2 :: rest) e h)

theorem debounceFires_burst (delay : Nat) :
    ∀ evs : List (Nat × TriggerInput),
      List.Chain' (fun a b => b.1 < a.1 + delay) evs →
      debounceFires delay evs = evs.getLast?.toList
  | [] => fun _ => rfl
  | [e1] => fun _ => rfl
  | e1 :: e2 :: rest => fun h => by
    obtain ⟨h1, h2⟩ := List.chain'_cons.mp h
    have ih := debounceFires_burst delay (e2 :: rest) h2
    simp only [debounceFires, if_pos h1, ih, List.getLast?_cons_cons]

theorem processFires_cons (s : CoordState) (f : Nat × TriggerInput)
    (fs : List (Nat × TriggerInput)) :
    processFires s (f :: fs) = processFires (startRun s f.2.deps).1 fs := rfl

theorem processFires_activeRun :
    ∀ (fires : List (Nat × TriggerInput)) (s : CoordState),
      (processFires s fires).activeRun = s.activeRun + fires.length := by
  intro fires
  induction fires with
  | nil =>
    intro s
    rfl
  | cons f fs ih =>
    intro s
    rw [processFires_cons, ih]
    simp only [startRun, List.length_cons]
    omega

/-! Claim theorems. -/

/-- C1: `resolveMaxSatisfying` returns the maximum, by semantic-version
precedence (major, minor, patch, then pre-release precedence, a pre-release
being below its release), of the versions satisfying the range predicate,
and `none` when no version satisfies the range or the range string is
unparseable; over the set 1.1.0, 1.2.0, 1.3.5, 2.0.0 the range
`^1.2.0` resolves to 1.3.5 and `^3.0.0` resolves to `none`. -/
theorem resolveMaxSatisfying_correct :
    (∀ (versions : List PublishedVersion) (range : String),
      (parseRange range = none → resolveMaxSatisfying versions range = none) ∧
      (∀ r, parseRange range = some r →
        (resolveMaxSatisfying versions range = none ↔
          ∀ pv ∈ versions, rangeSat r pv.version = false) ∧
        (∀ m, resolveMaxSatisfying versions range = some m →
          m ∈ versions ∧ rangeSat r m.version = true ∧
          ∀ pv ∈ versions, rangeSat r pv.version = true →
            semLe pv.version m.version))) ∧
    resolveMaxSatisfying demoVersions "^1.2.0" = some ⟨vp 1 3 5, 300⟩ ∧
    resolveMaxSatisfying demoVersions "^3.0.0" = none := by
  refine ⟨?_, by decide, by decide⟩
  intro versions range
  refine ⟨resolveMaxSatisfying_parse_none versions range, ?_⟩
  intro r hr
  exact ⟨resolveMaxSatisfying_none_iff versions range r hr,
    fun m hm => resolveMaxSatisfying_some_spec versions range r hr m hm⟩

theorem resolveMaxSatisfying_correct_witness :
    resolveMaxSatisfying demoVersions "not a version" = none ∧
      (⟨vp 1 3 5, 300⟩ : PublishedVersion) ∈ demoVersions :=
  ⟨(resolveMaxSatisfying_correct.1 demoVersions "not a version").1 (by decide),
    (((resolveMaxSatisfying_correct.1 demoVersions "^1.2.0").2
      [[⟨.ge, vp 1 2 0⟩, ⟨.lt, vp 2 0 0⟩]] (by decide)).2
      ⟨vp 1 3 5, 300⟩ (by decide)).1⟩

/-- C2: a `lookup` run issues exactly one fetch per distinct package name
(the issued list is duplicate-free and covers exactly the names of the
dependency sequence), sets `total` to the deduplicated count and
`fulfilled` to zero before any fetch is applied, and once the run settles —
whatever outcome each fetch produced, including all of them failing —
`fulfilled` equals `total` equals the deduplicated name count. -/
theorem lookup_progress_spec (s : CoordState) (deps : List Dependency)
    (fetch : String → LookupOutcome) :
    (startRun s deps).2.Nodup ∧
    (∀ n, n ∈ (startRun s deps).2 ↔ n ∈ deps.map Dependency.name) ∧
    (startRun s deps).1.total = (startRun s deps).2.length ∧
    (startRun s deps).1.fulfilled = 0 ∧
    (settleRun s deps fetch).fulfilled = (settleRun s deps fetch).total ∧
    (settleRun s deps fetch).total = (startRun s deps).2.length := by
  have hrun : ∀ e ∈ runEvents (startRun s deps).1.activeRun fetch (startRun s deps).2,
      e.runId = (startRun s deps).1.activeRun := by
    intro e he
    unfold runEvents at he
    obtain ⟨n, _, hn⟩ := List.mem_map.mp he
    rw [← hn]
  obtain ⟨ht, hf⟩ :=
    applyEvents_run (runEvents (startRun s deps).1.activeRun fetch (startRun s deps).2)
      (startRun s deps).1 hrun
  refine ⟨List.nodup_dedup _, fun n => List.mem_dedup, rfl, rfl, ?_, ?_⟩
  · unfold settleRun
    rw [ht, hf]
    simp only [startRun, runEvents, List.length_map]
    omega
  · unfold settleRun
    rw [ht]
    rfl

/-- C3: when a second `lookup` call supersedes an in-flight run, outcomes of
the superseded run are never applied: event application ignores every event
not tagged with the active run id, a batch consisting solely of first-run
events leaves the second run's state untouched, and every result recorded
after the second run's events settle stems from a second-run event. -/
theorem lookup_cancellation_spec (s : CoordState) (deps1 deps2 : List Dependency)
    (evs : List FetchEvent) :
    (applyEvents (secondRunState s deps1 deps2) evs =
      applyEvents (secondRunState s deps1 deps2)
        (evs.filter (fun e => e.runId == (secondRunState s deps1 deps2).activeRun))) ∧
    ((∀ e ∈ evs, e.runId = (startRun s deps1).1.activeRun) →
      applyEvents (secondRunState s deps1 deps2) evs = secondRunState s deps1 deps2) ∧
    (∀ x ∈ (applyEvents (secondRunState s deps1 deps2) evs).results,
      ∃ e ∈ evs, e.runId = (secondRunState s deps1 deps2).activeRun ∧
        x = (e.name, e.outcome)) := by
  refine ⟨applyEvents_drop_stale evs _, ?_, ?_⟩
  · intro hall
    apply applyEvents_all_stale
    intro e he
    rw [hall e he]
    simp only [secondRunState, startRun]
    omega
  · intro x hx
    rcases applyEvents_results evs _ x hx with hmem | h
    · simp only [secondRunState, startRun] at hmem
      exact absurd hmem (List.not_mem_nil x)
    · exact h

theorem lookup_cancellation_witness :
    applyEvents (secondRunState CoordState.init [⟨"lodash", "^1.0.0", false⟩] [])
        [⟨1, "lodash", LookupOutcome.notFound⟩] =
      secondRunState CoordState.init [⟨"lodash", "^1.0.0", false⟩] [] :=
  (lookup_cancellation_spec CoordState.init [⟨"lodash", "^1.0.0", false⟩] []
    [⟨1, "lodash", LookupOutcome.notFound⟩]).2.1 (by decide)

/-- C4: the Stats Aggregator emits one row per dependency exactly when its
outcome is a `success` and its range resolves to some version (rows with
any other outcome, or an unsatisfiable or unparseable range, are omitted
without affecting other dependencies), and the emitted rows keep the input
dependency order, as witnessed by the package-name projection. -/
theorem computeStats_spec (deps : List Dependency)
    (outcomes : List (String × LookupOutcome)) (now : Int) :
    ((computeStats deps outcomes now).map StatRow.package =
      (deps.filter (emitsRow outcomes)).map Dependency.name) ∧
    (∀ d, emitsRow outcomes d = true ↔
      ∃ meta, outcomes.lookup d.name = some (LookupOutcome.success meta) ∧
        (resolveMaxSatisfying meta.versions d.requestedRange).isSome = true) ∧
    (∀ d, emitsRow outcomes d = false → statRowFor outcomes now d = none) := by
  refine ⟨computeStats_packages outcomes now deps, ?_,
    statRowFor_none_of_not_emits outcomes now⟩
  intro d
  unfold emitsRow
  rcases hq : outcomes.lookup d.name with _ | o
  · simp [hq]
  · cases o with
    | success meta => simp [hq]
    | notFound => simp [hq]
    | transportError detail => simp [hq]
    | parseError detail => simp [hq]

theorem computeStats_spec_witness :
    statRowFor [("left-pad", LookupOutcome.notFound)] 1000
      ⟨"left-pad", "^1.0.0", false⟩ = none :=
  (computeStats_spec [] [("left-pad", LookupOutcome.notFound)] 1000).2.2
    ⟨"left-pad", "^1.0.0", false⟩ (by decide)

/-- C5: `fetchMetadata` is a total classification of every registry
response into a `LookupOutcome` — an HTTP 404 maps to `notFound`, a
network failure, timeout or other non-2xx status maps to `transportError`,
a 2xx payload the parser rejects maps to `parseError`, and a 2xx payload
the parser accepts maps to `success`; no response escapes these cases. -/
theorem fetchMetadata_classification (parseBody : String → Option PackageMetadata)
    (resp : RegistryResponse) :
    (fetchMetadata parseBody resp = LookupOutcome.notFound ↔
      ∃ body, resp = RegistryResponse.http 404 body) ∧
    (∀ meta, fetchMetadata parseBody resp = LookupOutcome.success meta ↔
      ∃ status body, resp = RegistryResponse.http status body ∧ status ≠ 404 ∧
        200 ≤ status ∧ status < 300 ∧ parseBody body = some meta) ∧
    ((∃ detail, fetchMetadata parseBody resp = LookupOutcome.parseError detail) ↔
      ∃ status body, resp = RegistryResponse.http status body ∧ status ≠ 404 ∧
        200 ≤ status ∧ status < 300 ∧ parseBody body = none) ∧
    ((∃ detail, fetchMetadata parseBody resp = LookupOutcome.transportError detail) ↔
      (resp = RegistryResponse.timeout ∨
        (∃ d2, resp = RegistryResponse.networkError d2) ∨
        ∃ status body, resp = RegistryResponse.http status body ∧ status ≠ 404 ∧
          ¬(200 ≤ status ∧ status < 300))) := by
  cases resp with
  | timeout => simp [fetchMetadata]
  | networkError detail => simp [fetchMetadata]
  | http status body =>
    by_cases h4 : status = 404
    · subst h4
      simp [fetchMetadata]
    · by_cases h2 : 200 ≤ status ∧ status < 300
      · rcases hp : parseBody body with _ | meta
        · simp [fetchMetadata, h4, h2, hp]
          exact ⟨status, body, ⟨rfl, rfl⟩, h4, h2.1, h2.2, hp⟩
        · simp [fetchMetadata, h4, h2, hp]
          intro meta1
          constructor
          · intro he
            subst he
            exact ⟨status, body, ⟨rfl, rfl⟩, h4, h2.1, h2.2, hp⟩
          · rintro ⟨s1, b1, ⟨hs, hb⟩, _, _, _, hps⟩
            subst hs
            subst hb
            rw [hp] at hps
            exact (Option.some.injEq _ _).mp hps
      · simp [fetchMetadata, h4, h2]
        refine ⟨fun meta hA hB _ => h2 ⟨hA, hB⟩, fun hA hB _ => h2 ⟨hA, hB⟩, fun hA => ?_⟩
        by_cases hB : status < 300
        · exact absurd ⟨hA, hB⟩ h2
        · omega

/-- C6: `resolveMaxSatisfying` is order-independent and idempotent —
permuting the input version list leaves the selected version (or the `none`
result) unchanged, and so does duplicating the whole list. -/
theorem resolveMaxSatisfying_order_independent (l1 l2 : List PublishedVersion)
    (range : String) (hperm : l1.Perm l2) :
    ((resolveMaxSatisfying l1 range).map (fun pv => pv.version) =
      (resolveMaxSatisfying l2 range).map (fun pv => pv.version)) ∧
    ((resolveMaxSatisfying (l1 ++ l1) range).map (fun pv => pv.version) =
      (resolveMaxSatisfying l1 range).map (fun pv => pv.version)) :=
  ⟨resolve_version_eq_of_mem_iff l1 l2 range (fun _ => hperm.mem_iff),
    resolve_version_eq_of_mem_iff (l1 ++ l1) l1 range (fun pv => by simp)⟩

theorem resolveMaxSatisfying_order_independent_witness :
    (resolveMaxSatisfying
        [⟨vp 1 2 0, 200⟩, ⟨vp 1 1 0, 100⟩, ⟨vp 1 3 5, 300⟩, ⟨vp 2 0 0, 400⟩]
        "^1.2.0").map (fun pv => pv.version) =
      (resolveMaxSatisfying demoVersions "^1.2.0").map (fun pv => pv.version) :=
  (resolveMaxSatisfying_order_independent
    [⟨vp 1 2 0, 200⟩, ⟨vp 1 1 0, 100⟩, ⟨vp 1 3 5, 300⟩, ⟨vp 2 0 0, 400⟩]
    demoVersions "^1.2.0"
    (List.Perm.swap (⟨vp 1 1 0, 100⟩ : PublishedVersion) ⟨vp 1 2 0, 200⟩
      [⟨vp 1 3 5, 300⟩, ⟨vp 2 0 0, 400⟩])).1

/-- C7: `ageSeconds` returns `now - publishedAt` in whole seconds with a
negative difference clamped to zero, so it is never negative,
`ageSeconds (now - 86400) now = 86400`, `ageSeconds now now = 0`, and both
ages of every row `computeStats` emits are nonnegative. -/
theorem ageSeconds_spec :
    (∀ publishedAt now : Int, 0 ≤ ageSeconds publishedAt now) ∧
    (∀ publishedAt now : Int, publishedAt ≤ now →
      ageSeconds publishedAt now = now - publishedAt) ∧
    (∀ publishedAt now : Int, now < publishedAt → ageSeconds publishedAt now = 0) ∧
    (∀ now : Int, ageSeconds (now - 86400) now = 86400 ∧ ageSeconds now now = 0) ∧
    (∀ (deps : List Dependency) (outcomes : List (String × LookupOutcome)) (now : Int),
      ∀ row ∈ computeStats deps outcomes now,
        0 ≤ row.maxSatisfiedAge ∧ 0 ≤ row.latestAge) := by
  refine ⟨?_, ?_, ?_, ?_, computeStats_ages⟩
  · intro p n
    exact le_max_right _ _
  · intro p n h
    unfold ageSeconds
    rw [max_eq_left (by omega)]
  · intro p n h
    unfold ageSeconds
    rw [max_eq_right (by omega)]
  · intro n
    constructor
    · unfold ageSeconds
      rw [max_eq_left (by omega)]
      omega
    · unfold ageSeconds
      rw [max_eq_left (by omega)]
      omega

theorem ageSeconds_spec_witness :
    ageSeconds 0 86400 = 86400 ∧ ageSeconds 500 0 = 0 :=
  ⟨ageSeconds_spec.2.1 0 86400 (by decide), ageSeconds_spec.2.2.1 500 0 (by decide)⟩

/-- C8: a `lookup` call with an empty dependency sequence is a no-op that
clears the results map and resets progress to zero totals, and issues no
fetch. -/
theorem lookup_empty_clears (s : CoordState) (fetch : String → LookupOutcome) :
    settleRun s [] fetch = ⟨s.activeRun + 1, 0, 0, []⟩ ∧ (startRun s []).2 = [] :=
  ⟨rfl, rfl⟩

/-- C9: whenever the dependency list or registry endpoint changes, the
trigger passes through a debounce stage — every fire is a real change
event, a burst of changes each arriving within the delay of its
predecessor collapses to the last change only — each fire invalidates the
current run and starts a fresh one (new run id, fresh counters and empty
results, one new run per fire), and the `StepResults` component configures
the delay as 200 ms. -/
theorem debounce_recompute_spec :
    (∀ (delay : Nat) (evs : List (Nat × TriggerInput)),
      ∀ e ∈ debounceFires delay evs, e ∈ evs) ∧
    (∀ (delay : Nat) (evs : List (Nat × TriggerInput)),
      List.Chain' (fun a b => b.1 < a.1 + delay) evs →
      debounceFires delay evs = evs.getLast?.toList) ∧
    (∀ (st : CoordState) (deps : List Dependency),
      (startRun st deps).1.activeRun ≠ st.activeRun ∧
      (startRun st deps).1.fulfilled = 0 ∧ (startRun st deps).1.results = []) ∧
    (∀ (s : CoordState) (fires : List (Nat × TriggerInput)),
      (processFires s fires).activeRun = s.activeRun + fires.length) ∧
    stepResultsDebounceDelay = 200 := by
  refine ⟨debounceFires_subset, debounceFires_burst, ?_,
    fun s fires => processFires_activeRun fires s, rfl⟩
  intro st deps
  refine ⟨?_, rfl, rfl⟩
  simp only [startRun]
  omega

theorem debounce_recompute_witness :
    debounceFires 200
      [(0, ⟨[], "https://registry.npmjs.org"⟩),
        (50, ⟨[], "https://registry.npmjs.org"⟩),
        (120, ⟨[⟨"react", "^18.0.0", false⟩], "https://registry.npmjs.org"⟩)] =
      [(120, ⟨[⟨"react", "^18.0.0", false⟩], "https://registry.npmjs.org"⟩)] :=
  debounce_recompute_spec.2.1 200
    [(0, ⟨[], "https://registry.npmjs.org"⟩),
      (50, ⟨[], "https://registry.npmjs.org"⟩),
      (120, ⟨[⟨"react", "^18.0.0", false⟩], "https://registry.npmjs.org"⟩)]
    (List.chain'_cons.mpr ⟨by decide,
      List.chain'_cons.mpr ⟨by decide, List.chain'_singleton _⟩⟩)

/-- C10: the Status-column classifier is a total function of `latestAge`
alone with exactly five outputs: ghost above five years, skull above three
years, zombie above one-and-a-half years, fire below half a year and
thumbs-up otherwise, a year being 365 days; in particular every age
between half a year and one-and-a-half years inclusive is thumbs-up. -/
theorem statusEmoji_spec :
    (∀ age : Int,
      statusEmoji age = "👻" ∨ statusEmoji age = "💀" ∨ statusEmoji age = "🧟" ∨
        statusEmoji age = "🔥" ∨ statusEmoji age = "👍") ∧
    (∀ age : Int,
      (statusEmoji age = "👻" ↔ YEAR_SECONDS * 5 < age) ∧
      (statusEmoji age = "💀" ↔ (YEAR_SECONDS * 3 < age ∧ age ≤ YEAR_SECONDS * 5)) ∧
      (statusEmoji age = "🧟" ↔ (3 * YEAR_SECONDS < 2 * age ∧ age ≤ YEAR_SECONDS * 3)) ∧
      (statusEmoji age = "🔥" ↔ 2 * age < YEAR_SECONDS) ∧
      (statusEmoji age = "👍" ↔ (YEAR_SECONDS ≤ 2 * age ∧ 2 * age ≤ 3 * YEAR_SECONDS))) ∧
    (∀ age : Int, YEAR_SECONDS ≤ 2 * age → 2 * age ≤ 3 * YEAR_SECONDS →
      statusEmoji age = "👍") := by
  refine ⟨?_, ?_, ?_⟩
  · intro age
    unfold statusEmoji
    split_ifs <;> tauto
  · intro age
    unfold statusEmoji YEAR_SECONDS
    split_ifs with h1 h2 h3 h4 <;>
      refine ⟨?_, ?_, ?_, ?_, ?_⟩ <;> constructor <;> intro hh <;>
      first
      | rfl
      | omega
      | (exact absurd hh (by decide))
  · intro age hA hB
    unfold YEAR_SECONDS at hA hB
    unfold statusEmoji YEAR_SECONDS
    split_ifs with h1 h2 h3 h4 <;> first | rfl | omega

theorem statusEmoji_spec_witness : statusEmoji 31536000 = "👍" :=
  statusEmoji_spec.2.2 31536000 (by decide) (by decide)

theorem fetchMetadata_classification_witness :
    fetchMetadata (fun _ => none) (RegistryResponse.http 404 "no such package") =
      LookupOutcome.notFound :=
  (fetchMetadata_classification (fun _ => none)
    (RegistryResponse.http 404 "no such package")).1.mpr ⟨"no such package", rfl⟩
